import Mathlib

/-!
Verification of the secure-channel core of the repository
(`src/rust_03/src/main.rs`): Diffie-Hellman key exchange over `mod_pow`,
an LCG keystream, XOR stream cipher, and the length-framed chat loops of
`run_server` / `run_client`.

Machine integers (`u64`, `u128`, `u8`, `u32`) are embedded as `Nat` with
explicit `% 2^w` reductions exactly where the Rust code performs a cast
or where an arithmetic operation is carried out at a given width.
-/

/-- Diffie-Hellman modulus `P` from the source (`const P: u64`). -/
def P : Nat := 0xD87FA3E291B4C7F3

/-- Diffie-Hellman generator `G` from the source (`const G: u64`). -/
def G : Nat := 2

/-- The `while exp > 0` loop of `mod_pow`, with an explicit fuel argument
so that the recursion is structural (the Rust loop halves `exp` each
iteration, so any `fuel ≥ exp` is enough; `mod_pow` passes `exp` itself).
All multiplications are performed at `u128` width (`% 2^128`), as in the
source, before reducing modulo `m`. -/
def modPowAux : Nat → Nat → Nat → Nat → Nat → Nat
  | 0, _, _, r, _ => r
  | fuel + 1, b, e, r, m =>
    if e = 0 then r
    else
      modPowAux fuel (b * b % 2 ^ 128 % m) (e / 2)
        (if e % 2 = 1 then r * b % 2 ^ 128 % m else r) m

/-- `fn mod_pow(base, exp, modu) -> u64` from the source: returns `0`
when `modu == 1`, otherwise runs binary exponentiation with `u128`
intermediates, starting from `result = 1` and `base % modu`. -/
def mod_pow (base exp modu : Nat) : Nat :=
  if modu = 1 then 0 else modPowAux exp (base % modu) exp 1 modu

/-- `fn compute_shared_secret(their_public, our_private) -> u64`. -/
def compute_shared_secret (their_public our_private : Nat) : Nat :=
  mod_pow their_public our_private P

/-- `struct DHKeys` from the source. -/
structure DHKeys where
  private_key : Nat
  public : Nat
  deriving DecidableEq

/-- `DHKeys::new` with the random draw `rng.gen_range(2..P)` abstracted
into the parameter `priv_` (theorems quantify over `2 ≤ priv_ < P`);
the public key is computed exactly as in the source. -/
def DHKeys.ofPrivate (priv_ : Nat) : DHKeys :=
  { private_key := priv_, public := mod_pow G priv_ P }

/-- `struct LCG` from the source: multiplier, increment, modulus and
current state, all `u64` fields. -/
structure LCG where
  a : Nat
  c : Nat
  m : Nat
  state : Nat
  deriving DecidableEq

/-- `LCG::new(seed)` from the source: classic parameters, modulus `2^32`,
state initialised to the seed (a `u64`, stored unreduced). -/
def LCG.new (seed : Nat) : LCG :=
  { a := 1103515245, c := 12345, m := 1 <<< 32, state := seed }

/-- `LCG::next(&mut self) -> u8` from the source: the update
`state = (a*state + c) % m` is computed at `u128` width, stored back into
the `u64` state, and the returned byte is `(state >> 24) as u8`
(a `% 256` truncation). Returns the updated generator and the byte. -/
def LCG.next (g : LCG) : LCG × Nat :=
  let s := (g.a * g.state + g.c) % 2 ^ 128 % g.m
  ({ g with state := s }, s >>> 24 % 256)

/-- `fn xor_crypt(data, keystream) -> Vec<u8>`: each output byte is the
input byte XORed with the next keystream byte, threading the mutated
generator left to right. Returns the output bytes and the advanced
generator. -/
def xor_crypt : List Nat → LCG → List Nat × LCG
  | [], g => ([], g)
  | b :: bs, g =>
    let p := g.next
    let r := xor_crypt bs p.1
    ((b ^^^ p.2) :: r.1, r.2)

/-- Derived: the byte sequence produced by `n` successive `LCG::next`
calls, together with the final generator. -/
def lcgBytes : LCG → Nat → List Nat × LCG
  | g, 0 => ([], g)
  | g, n + 1 =>
    let p := g.next
    let r := lcgBytes p.1 n
    (p.2 :: r.1, r.2)

/-- Derived: the generator after `n` successive `LCG::next` calls. -/
def lcgIter (g : LCG) : Nat → LCG
  | 0 => g
  | n + 1 => (lcgIter g n).next.1

/-- `(x as u32).to_be_bytes()`: the four big-endian bytes of
`x % 2^32` (each byte reduced `% 256`, which performs that truncation). -/
def u32be (n : Nat) : List Nat :=
  [n / 2 ^ 24 % 256, n / 2 ^ 16 % 256, n / 2 ^ 8 % 256, n % 256]

/-- `(x : u64).to_be_bytes()`: the eight big-endian bytes of `x % 2^64`. -/
def u64be (n : Nat) : List Nat :=
  [n / 2 ^ 56 % 256, n / 2 ^ 48 % 256, n / 2 ^ 40 % 256, n / 2 ^ 32 % 256,
   n / 2 ^ 24 % 256, n / 2 ^ 16 % 256, n / 2 ^ 8 % 256, n % 256]

/-- `uN::from_be_bytes`: big-endian value of a byte list. -/
def beVal (l : List Nat) : Nat :=
  l.foldl (fun acc b => acc * 256 + b) 0

/-- `read_exact` on a byte stream modelled as a list: succeeds with the
first `n` bytes and the rest iff at least `n` bytes are available,
otherwise it is an I/O error (`None`). -/
def read_exact (n : Nat) (s : List Nat) : Option (List Nat × List Nat) :=
  if n ≤ s.length then some (s.take n, s.drop n) else none

/-- The frame written by the send side of the chat loops: the 4-byte
big-endian `ciphertext.len() as u32` header followed by the ciphertext. -/
def encodeFrame (c : List Nat) : List Nat :=
  u32be c.length ++ c

/-- The frame parse performed by the receive side: `read_exact` 4 header
bytes, interpret them as a big-endian length, then `read_exact` that many
payload bytes. Returns the declared length and the payload. -/
def parseFrame (bytes : List Nat) : Option (Nat × List Nat) :=
  match read_exact 4 bytes with
  | none => none
  | some (hdr, rest) =>
    match read_exact (beVal hdr) rest with
    | none => none
    | some (ct, _) => some (beVal hdr, ct)

/-- A sequence of encoded frames laid out back to back on the wire. -/
def frameStream (fs : List (List Nat)) : List Nat :=
  (fs.map encodeFrame).flatten

/-- ASCII whitespace, the byte-level fragment of Rust's
`char::is_whitespace` used by `str::trim` (tab, LF, VT, FF, CR, space);
multi-byte Unicode whitespace is outside this byte-level model. -/
def isWsByte (b : Nat) : Bool :=
  b = 9 || b = 10 || b = 11 || b = 12 || b = 13 || b = 32

/-- `input.trim()` on the raw bytes of a line: strip leading and
trailing ASCII whitespace. -/
def rustTrim (l : List Nat) : List Nat :=
  ((l.dropWhile isWsByte).reverse.dropWhile isWsByte).reverse

/-- One I/O event on the socket: bytes written or bytes read. -/
inductive Ev where
  | send (bytes : List Nat)
  | recv (bytes : List Nat)
  deriving DecidableEq

/-- The direction of an I/O event. -/
inductive Dir where
  | send
  | recv
  deriving DecidableEq

/-- Direction of an event. -/
def Ev.dir : Ev → Dir
  | .send _ => .send
  | .recv _ => .recv

/-- The mirror image of a direction. -/
def Dir.flip : Dir → Dir
  | .send => .recv
  | .recv => .send

/-- How a session run ends in the model: `ok` when the supply of stdin
lines is exhausted (carrying the final generator and unread socket
bytes), or `ioError` when a `read_exact` fails — exactly the `?`
early-return of the Rust code. -/
inductive Outcome where
  | ok (g : LCG) (sockRest : List Nat)
  | ioError
  deriving DecidableEq

/-- The server chat loop (`run_server`, lines 150-173): per iteration,
read a stdin line, skip it if the trimmed line is empty (`continue`),
otherwise encrypt and send a frame (header write then ciphertext write),
then receive a frame (header read then payload read) and decrypt it.
Stdin is modelled as the list of raw lines still available; any failed
`read_exact` ends the run with `ioError`. Returns the socket I/O trace
and the outcome. -/
def serverLoop : List (List Nat) → List Nat → LCG → List Ev × Outcome
  | [], sockIn, g => ([], .ok g sockIn)
  | l :: ls, sockIn, g =>
    if rustTrim l = [] then serverLoop ls sockIn g
    else
      let enc := xor_crypt (rustTrim l) g
      let hdr := u32be enc.1.length
      match read_exact 4 sockIn with
      | none => ([Ev.send hdr, Ev.send enc.1], .ioError)
      | some (lenB, r1) =>
        match read_exact (beVal lenB) r1 with
        | none => ([Ev.send hdr, Ev.send enc.1, Ev.recv lenB], .ioError)
        | some (ctIn, r2) =>
          let dec := xor_crypt ctIn enc.2
          let rest := serverLoop ls r2 dec.2
          (Ev.send hdr :: Ev.send enc.1 :: Ev.recv lenB :: Ev.recv ctIn ::
            rest.1, rest.2)

/-- The client chat loop (`run_client`, lines 202-225): per iteration,
receive a frame first and decrypt it, then read a stdin line; if the
trimmed line is empty, `continue` (back to the receive step), otherwise
encrypt and send a frame. One stdin line is consumed per iteration; the
model stops (`ok`) when the supply of lines runs out, before the next
receive. -/
def clientLoop : List (List Nat) → List Nat → LCG → List Ev × Outcome
  | [], sockIn, g => ([], .ok g sockIn)
  | l :: ls, sockIn, g =>
    match read_exact 4 sockIn with
    | none => ([], .ioError)
    | some (lenB, r1) =>
      match read_exact (beVal lenB) r1 with
      | none => ([Ev.recv lenB], .ioError)
      | some (ctIn, r2) =>
        let dec := xor_crypt ctIn g
        if rustTrim l = [] then
          let rest := clientLoop ls r2 dec.2
          (Ev.recv lenB :: Ev.recv ctIn :: rest.1, rest.2)
        else
          let enc := xor_crypt (rustTrim l) dec.2
          let rest := clientLoop ls r2 enc.2
          (Ev.recv lenB :: Ev.recv ctIn ::
            Ev.send (u32be enc.1.length) :: Ev.send enc.1 ::
            rest.1, rest.2)

/-- `run_server` after accepting a connection: send the own public key
(8 bytes big-endian), receive the peer's 8-byte public key, derive the
shared secret, seed the LCG and run the chat loop. The random private
key is the parameter `priv_`; the public key is computed as in
`DHKeys::new`. -/
def run_server (priv_ : Nat) (stdin : List (List Nat)) (sockIn : List Nat) :
    List Ev × Outcome :=
  let pub := mod_pow G priv_ P
  match read_exact 8 sockIn with
  | none => ([Ev.send (u64be pub)], .ioError)
  | some (pk, rest) =>
    let secret := compute_shared_secret (beVal pk) priv_
    let r := serverLoop stdin rest (LCG.new secret)
    (Ev.send (u64be pub) :: Ev.recv pk :: r.1, r.2)

/-- `run_client` after connecting: receive the peer's 8-byte public key,
send the own public key, derive the shared secret, seed the LCG and run
the chat loop. -/
def run_client (priv_ : Nat) (stdin : List (List Nat)) (sockIn : List Nat) :
    List Ev × Outcome :=
  let pub := mod_pow G priv_ P
  match read_exact 8 sockIn with
  | none => ([], .ioError)
  | some (pk, rest) =>
    let secret := compute_shared_secret (beVal pk) priv_
    let r := clientLoop stdin rest (LCG.new secret)
    (Ev.recv pk :: Ev.send (u64be pub) :: r.1, r.2)

/-- Dropping an outer reduction of the left factor under a product mod. -/
lemma mulModML (x z m : Nat) : x % m * z % m = x * z % m := by
  rw [Nat.mul_mod, Nat.mod_mod_of_dvd x dvd_rfl, ← Nat.mul_mod]

/-- Dropping an inner reduction of the base of a power under a product mod. -/
lemma mulModPR (x y k m : Nat) : x * (y % m) ^ k % m = x * y ^ k % m := by
  rw [Nat.mul_mod, ← Nat.pow_mod, ← Nat.mul_mod]

/-- The binary-exponentiation loop computes `r * b^e mod m`, provided the
fuel covers the exponent and `m` fits in a `u64` so that the `u128`
intermediate products never wrap. -/
lemma modPowAux_eq :
    ∀ fuel e b r m, e ≤ fuel → 1 < m → m < 2 ^ 64 → b < m → r < m →
      modPowAux fuel b e r m = r * b ^ e % m := by
  intro fuel
  induction fuel with
  | zero =>
    intro e b r m he _ _ _ hr
    have he0 : e = 0 := Nat.le_zero.mp he
    subst he0
    simp [modPowAux, Nat.mod_eq_of_lt hr]
  | succ fuel ih =>
    intro e b r m he h1 h64 hb hr
    by_cases he0 : e = 0
    · subst he0
      simp [modPowAux, Nat.mod_eq_of_lt hr]
    · have hm0 : 0 < m := by omega
      have hb64 : b < 2 ^ 64 := hb.trans h64
      have hbb : b * b % 2 ^ 128 = b * b := by
        refine Nat.mod_eq_of_lt ?_
        calc b * b < 2 ^ 64 * 2 ^ 64 := Nat.mul_lt_mul'' hb64 hb64
          _ = 2 ^ 128 := by norm_num
      have hrb : r * b % 2 ^ 128 = r * b := by
        refine Nat.mod_eq_of_lt ?_
        calc r * b < 2 ^ 64 * 2 ^ 64 := Nat.mul_lt_mul'' (hr.trans h64) hb64
          _ = 2 ^ 128 := by norm_num
      have hstep : e / 2 ≤ fuel := by
        have hlt : e / 2 < e := Nat.div_lt_self (Nat.pos_of_ne_zero he0) one_lt_two
        omega
      simp only [modPowAux, if_neg he0]
      rw [hbb, hrb]
      set k := e / 2 with hk
      by_cases hpar : e % 2 = 1
      · rw [if_pos hpar,
          ih k (b * b % m) (r * b % m) m hstep h1 h64 (Nat.mod_lt _ hm0)
            (Nat.mod_lt _ hm0),
          mulModPR, mulModML]
        have he2 : e = 2 * k + 1 := by omega
        rw [he2]
        have : r * b * (b * b) ^ k = r * b ^ (2 * k + 1) := by ring
        rw [this]
      · rw [if_neg hpar,
          ih k (b * b % m) r m hstep h1 h64 (Nat.mod_lt _ hm0) hr,
          mulModPR]
        have he2 : e = 2 * k := by omega
        rw [he2]
        have : r * (b * b) ^ k = r * b ^ (2 * k) := by ring
        rw [this]

/-- `mod_pow` computes `b^e mod m` for every modulus that is `> 1` and
fits in a `u64`. -/
lemma mod_pow_spec (b e m : Nat) (h1 : 1 < m) (h64 : m < 2 ^ 64) :
    mod_pow b e m = b ^ e % m := by
  unfold mod_pow
  have hne : ¬m = 1 := by omega
  rw [if_neg hne,
    modPowAux_eq e e (b % m) 1 m le_rfl h1 h64 (Nat.mod_lt _ (by omega)) h1,
    one_mul, ← Nat.pow_mod]

/-- Claim C2: for all 64-bit `base`, `exponent`, `modulus` with
`modulus > 1`, `mod_pow base exponent modulus` equals the mathematical
`base ^ exponent mod modulus` (hence the result is `< modulus`, and
equals `1 % modulus` when the exponent is `0`); and
`mod_pow base exponent 1 = 0`. -/
theorem c2_mod_pow_correct (b e m : Nat)
    (hb : b < 2 ^ 64) (he : e < 2 ^ 64) (hm : m < 2 ^ 64) :
    (1 < m →
      mod_pow b e m = b ^ e % m ∧ mod_pow b e m < m ∧
      (e = 0 → mod_pow b e m = 1 % m)) ∧
    mod_pow b e 1 = 0 := by
  constructor
  · intro h1
    have hs := mod_pow_spec b e m h1 hm
    refine ⟨hs, ?_, ?_⟩
    · rw [hs]
      exact Nat.mod_lt _ (by omega)
    · intro he0
      subst he0
      rw [hs, pow_zero]
  · simp [mod_pow]

/-- Concrete instance of `c2_mod_pow_correct` at `b = 3`, `e = 5`,
`m = 7`. -/
theorem c2_mod_pow_correct_witness :
    (3 < 2 ^ 64 ∧ 5 < 2 ^ 64 ∧ 7 < 2 ^ 64) ∧
    ((1 < 7 →
        mod_pow 3 5 7 = 3 ^ 5 % 7 ∧ mod_pow 3 5 7 < 7 ∧
        (5 = 0 → mod_pow 3 5 7 = 1 % 7)) ∧
      mod_pow 3 5 1 = 0) :=
  ⟨by decide, c2_mod_pow_correct 3 5 7 (by decide) (by decide) (by decide)⟩

/-- Claim C1: Diffie-Hellman correctness — for any two key pairs built
from privates `a, b ∈ [2, P)` with publics `G ^ private mod P` computed
by `mod_pow` (as in `DHKeys::new`), the two shared-secret computations
agree: `compute_shared_secret(B.public, a) =
compute_shared_secret(A.public, b)`. -/
theorem c1_dh_agreement (a b : Nat)
    (ha : 2 ≤ a ∧ a < P) (hb : 2 ≤ b ∧ b < P) :
    compute_shared_secret (DHKeys.ofPrivate b).public a =
      compute_shared_secret (DHKeys.ofPrivate a).public b := by
  have hP1 : 1 < P := by decide
  have hP64 : P < 2 ^ 64 := by decide
  show mod_pow (mod_pow G b P) a P = mod_pow (mod_pow G a P) b P
  rw [mod_pow_spec _ _ _ hP1 hP64, mod_pow_spec _ _ _ hP1 hP64,
    mod_pow_spec _ _ _ hP1 hP64, mod_pow_spec _ _ _ hP1 hP64,
    ← Nat.pow_mod, ← Nat.pow_mod, ← pow_mul, ← pow_mul, Nat.mul_comm]

/-- Concrete instance of `c1_dh_agreement` at privates `2` and `3`. -/
theorem c1_dh_agreement_witness :
    (2 ≤ 2 ∧ 2 < P) ∧ (2 ≤ 3 ∧ 3 < P) ∧
    compute_shared_secret (DHKeys.ofPrivate 3).public 2 =
      compute_shared_secret (DHKeys.ofPrivate 2).public 3 :=
  ⟨by decide, by decide,
    c1_dh_agreement 2 3 ⟨by decide, by decide⟩ ⟨by decide, by decide⟩⟩

/-- The output bytes and final generator of `xor_crypt` are the XOR of
the data with the keystream prefix of the data's length, and the
generator advanced that many times. -/
lemma xor_crypt_eq (d : List Nat) (g : LCG) :
    xor_crypt d g =
      (d.zipWith (fun x y => x ^^^ y) (lcgBytes g d.length).1,
        (lcgBytes g d.length).2) := by
  induction d generalizing g with
  | nil => rfl
  | cons b bs ih => simp [xor_crypt, lcgBytes, ih]

/-- `xor_crypt` is length-preserving. -/
lemma xor_crypt_length (d : List Nat) (g : LCG) :
    (xor_crypt d g).1.length = d.length := by
  induction d generalizing g with
  | nil => rfl
  | cons b bs ih => simp [xor_crypt, ih]

/-- Applying `xor_crypt` twice from the same generator restores the data
and advances the generator identically. -/
lemma xor_crypt_invol (d : List Nat) (g : LCG) :
    xor_crypt (xor_crypt d g).1 g = (d, (xor_crypt d g).2) := by
  induction d generalizing g with
  | nil => rfl
  | cons b bs ih =>
    simp [xor_crypt, ih, Nat.xor_cancel_right]

/-- `lcgIter` commutes with one leading `LCG.next`. -/
lemma lcgIter_next_comm (g : LCG) (n : Nat) :
    lcgIter g.next.1 n = (lcgIter g n).next.1 := by
  induction n with
  | zero => rfl
  | succ n ih => simp [lcgIter, ih]

/-- The generator left by `lcgBytes` is `lcgIter` of the count. -/
lemma lcgBytes_snd (g : LCG) (n : Nat) :
    (lcgBytes g n).2 = lcgIter g n := by
  induction n generalizing g with
  | zero => rfl
  | succ n ih => simp [lcgBytes, lcgIter, ih, lcgIter_next_comm]

/-- `lcgBytes` produces exactly `n` bytes. -/
lemma lcgBytes_length (g : LCG) (n : Nat) :
    (lcgBytes g n).1.length = n := by
  induction n generalizing g with
  | zero => rfl
  | succ n ih => simp [lcgBytes, ih]

/-- The `a`, `c`, `m` fields of the generator never change across calls. -/
lemma lcgIter_fields (g : LCG) (n : Nat) :
    (lcgIter g n).a = g.a ∧ (lcgIter g n).c = g.c ∧ (lcgIter g n).m = g.m := by
  induction n with
  | zero => exact ⟨rfl, rfl, rfl⟩
  | succ n ih => simpa [lcgIter, LCG.next] using ih

/-- Claim C3: cipher involution — `xor_crypt (xor_crypt data (LCG.new s))
(LCG.new s)` restores `data` exactly (fresh generator with the same seed
for each application); each application is length-preserving and leaves
the generator advanced by exactly `data.length` calls to `next`. -/
theorem c3_cipher_involution (d : List Nat) (s : Nat) :
    (xor_crypt (xor_crypt d (LCG.new s)).1 (LCG.new s)).1 = d ∧
    (xor_crypt d (LCG.new s)).1.length = d.length ∧
    (xor_crypt (xor_crypt d (LCG.new s)).1 (LCG.new s)).1.length =
      (xor_crypt d (LCG.new s)).1.length ∧
    (xor_crypt d (LCG.new s)).2 = lcgIter (LCG.new s) d.length ∧
    (xor_crypt (xor_crypt d (LCG.new s)).1 (LCG.new s)).2 =
      lcgIter (LCG.new s) d.length := by
  have hi := xor_crypt_invol d (LCG.new s)
  have hadv : (xor_crypt d (LCG.new s)).2 = lcgIter (LCG.new s) d.length := by
    rw [xor_crypt_eq, lcgBytes_snd]
  refine ⟨by rw [hi], xor_crypt_length d _, ?_, hadv, ?_⟩
  · rw [xor_crypt_length, xor_crypt_length]
  · rw [hi]
    exact hadv

/-- Claim C5: keystream determinism — equal seeds give equal byte
sequences and equal final states for any number of `next` calls;
moreover `xor_crypt` consumes exactly the keystream prefix of the data's
length independently of the data's contents, so two peers that advance
the generator once per byte in matching order (same byte counts) hold
identical generators afterwards. -/
theorem c5_keystream_determinism (s1 s2 n : Nat) (h : s1 = s2)
    (d1 d2 : List Nat) (g : LCG) (hlen : d1.length = d2.length) :
    lcgBytes (LCG.new s1) n = lcgBytes (LCG.new s2) n ∧
    xor_crypt d1 g =
      (d1.zipWith (fun x y => x ^^^ y) (lcgBytes g d1.length).1,
        (lcgBytes g d1.length).2) ∧
    (xor_crypt d1 g).2 = (xor_crypt d2 g).2 := by
  subst h
  refine ⟨rfl, xor_crypt_eq d1 g, ?_⟩
  rw [xor_crypt_eq, xor_crypt_eq, hlen]

/-- Concrete instance of `c5_keystream_determinism`: seed `7`, two
3-byte inputs. -/
theorem c5_keystream_determinism_witness :
    (7 = 7 ∧ ([1, 2, 3] : List Nat).length = ([9, 9, 9] : List Nat).length) ∧
    (lcgBytes (LCG.new 7) 4 = lcgBytes (LCG.new 7) 4 ∧
      xor_crypt [1, 2, 3] (LCG.new 5) =
        (([1, 2, 3] : List Nat).zipWith (fun x y => x ^^^ y)
            (lcgBytes (LCG.new 5) ([1, 2, 3] : List Nat).length).1,
          (lcgBytes (LCG.new 5) ([1, 2, 3] : List Nat).length).2) ∧
      (xor_crypt [1, 2, 3] (LCG.new 5)).2 =
        (xor_crypt [9, 9, 9] (LCG.new 5)).2) :=
  ⟨⟨rfl, by decide⟩,
    c5_keystream_determinism 7 7 4 rfl [1, 2, 3] [9, 9, 9] (LCG.new 5)
      (by decide)⟩

/-- The first state update of a fresh generator depends only on the seed
modulo `2^32`, for any 64-bit seed. -/
lemma lcgNew_next_trunc (s : Nat) (hs : s < 2 ^ 64) :
    (LCG.new s).next = (LCG.new (s % 2 ^ 32)).next := by
  have hm : (1 : Nat) <<< 32 = 2 ^ 32 := by decide
  have hwide : ∀ t : Nat, t < 2 ^ 64 →
      (1103515245 * t + 12345) % 2 ^ 128 = 1103515245 * t + 12345 := by
    intro t ht
    refine Nat.mod_eq_of_lt ?_
    have hmul : 1103515245 * t < 2 ^ 31 * 2 ^ 64 :=
      Nat.mul_lt_mul'' (by norm_num) ht
    have hbig : (2 : Nat) ^ 31 * 2 ^ 64 + 12345 < 2 ^ 128 := by norm_num
    omega
  have hs' : s % 2 ^ 32 < 2 ^ 64 :=
    lt_trans (Nat.mod_lt s (by norm_num)) (by norm_num)
  have key : (1103515245 * s + 12345) % 2 ^ 32 =
      (1103515245 * (s % 2 ^ 32) + 12345) % 2 ^ 32 :=
    ((Nat.mod_modEq s (2 ^ 32)).symm.mul_left 1103515245).add_right 12345
  simp only [LCG.new, LCG.next, hm, hwide s hs, hwide _ hs', key]

/-- Claim C7: seed truncation — for every 64-bit seed `s` and every `n`,
the first `n` keystream bytes from `LCG.new s` equal those from
`LCG.new (s % 2^32)`: the first state update reduces modulo `2^32`, so
seeds are effectively truncated to 32 bits. -/
theorem c7_seed_truncation (s n : Nat) (hs : s < 2 ^ 64) :
    (lcgBytes (LCG.new s) n).1 = (lcgBytes (LCG.new (s % 2 ^ 32)) n).1 := by
  cases n with
  | zero => rfl
  | succ n => simp only [lcgBytes, lcgNew_next_trunc s hs]

/-- Concrete instance of `c7_seed_truncation`: seed `2^33 + 5`, four
bytes. -/
theorem c7_seed_truncation_witness :
    2 ^ 33 + 5 < 2 ^ 64 ∧
    (lcgBytes (LCG.new (2 ^ 33 + 5)) 4).1 =
      (lcgBytes (LCG.new ((2 ^ 33 + 5) % 2 ^ 32)) 4).1 :=
  ⟨by decide, c7_seed_truncation (2 ^ 33 + 5) 4 (by decide)⟩

/-- Claim C10: for every initial seed (including seeds `≥ 2^32`), the
state after every call to `next` is strictly below `2^32`; consequently
`state >> 24` is below `256` and the `as u8` cast returns exactly the
top 8 bits: the byte returned by the `(k+1)`-th call equals the new
state shifted right by 24, with no bits discarded. -/
theorem c10_state_invariant (s k : Nat) :
    (lcgIter (LCG.new s) (k + 1)).state < 2 ^ 32 ∧
    (lcgIter (LCG.new s) k).next.2 =
      (lcgIter (LCG.new s) (k + 1)).state / 2 ^ 24 ∧
    (lcgIter (LCG.new s) (k + 1)).state / 2 ^ 24 < 256 := by
  have hm : (lcgIter (LCG.new s) k).m = 2 ^ 32 := by
    rw [(lcgIter_fields (LCG.new s) k).2.2]
    show (1 : Nat) <<< 32 = 2 ^ 32
    decide
  have hstate :
      (lcgIter (LCG.new s) (k + 1)).state =
        ((lcgIter (LCG.new s) k).a * (lcgIter (LCG.new s) k).state +
            (lcgIter (LCG.new s) k).c) % 2 ^ 128 % 2 ^ 32 := by
    simp [lcgIter, LCG.next, hm]
  have hlt : (lcgIter (LCG.new s) (k + 1)).state < 2 ^ 32 := by
    rw [hstate]
    exact Nat.mod_lt _ (by norm_num)
  refine ⟨hlt, ?_, Nat.div_lt_of_lt_mul (by omega)⟩
  have hbyte : (lcgIter (LCG.new s) k).next.2 =
      (lcgIter (LCG.new s) (k + 1)).state >>> 24 % 256 := by
    simp [lcgIter, LCG.next, hm]
  rw [hbyte, Nat.shiftRight_eq_div_pow]
  exact Nat.mod_eq_of_lt (Nat.div_lt_of_lt_mul (by omega))

/-- `read_exact` on a stream that starts with exactly the requested
bytes succeeds with them and leaves the rest. -/
lemma read_exact_append (xs r : List Nat) :
    read_exact xs.length (xs ++ r) = some (xs, r) := by
  simp [read_exact, List.take_left, List.drop_left]

/-- `read_exact` fails on a stream shorter than the requested count. -/
lemma read_exact_short (n : Nat) (s : List Nat) (h : s.length < n) :
    read_exact n s = none := by
  simp only [read_exact, if_neg (by omega : ¬n ≤ s.length)]

/-- A `u32` header is 4 bytes long. -/
lemma u32be_length (n : Nat) : (u32be n).length = 4 := rfl

/-- A `u64` key is 8 bytes long. -/
lemma u64be_length (n : Nat) : (u64be n).length = 8 := rfl

/-- Decoding the 4 big-endian header bytes of a value below `2^32`
recovers the value. -/
lemma beVal_u32be (n : Nat) (h : n < 2 ^ 32) : beVal (u32be n) = n := by
  simp only [beVal, u32be, List.foldl]
  omega

/-- Reading a 4-byte header from a stream beginning with `u32be n`. -/
lemma read_exact_u32be (n : Nat) (r : List Nat) :
    read_exact 4 (u32be n ++ r) = some (u32be n, r) := by
  have h := read_exact_append (u32be n) r
  rwa [u32be_length] at h

/-- Reading an 8-byte key from a stream beginning with `u64be n`. -/
lemma read_exact_u64be (n : Nat) (r : List Nat) :
    read_exact 8 (u64be n ++ r) = some (u64be n, r) := by
  have h := read_exact_append (u64be n) r
  rwa [u64be_length] at h

/-- Claim C6: frame round-trip — for every ciphertext of fewer than
`2^32` bytes, encoding a frame (4-byte big-endian length then the bytes)
and parsing it (read 4 header bytes as a big-endian length, then read
that many bytes) yields back exactly the ciphertext and its original
length. -/
theorem c6_frame_roundtrip (c : List Nat) (h : c.length < 2 ^ 32) :
    parseFrame (encodeFrame c) = some (c.length, c) := by
  have h2 : read_exact c.length c = some (c, []) := by
    simpa using read_exact_append c ([] : List Nat)
  simp only [parseFrame, encodeFrame, read_exact_u32be, beVal_u32be _ h, h2]

/-- Concrete instance of `c6_frame_roundtrip` at ciphertext `[7, 8]`. -/
theorem c6_frame_roundtrip_witness :
    ([7, 8] : List Nat).length < 2 ^ 32 ∧
    parseFrame (encodeFrame [7, 8]) = some (([7, 8] : List Nat).length, [7, 8]) :=
  ⟨by decide, c6_frame_roundtrip [7, 8] (by decide)⟩

/-- Laying one encoded frame at the front of a frame stream. -/
lemma frameStream_cons (f : List Nat) (fs : List (List Nat)) :
    frameStream (f :: fs) = encodeFrame f ++ frameStream fs := by
  simp [frameStream]

/-- One full server iteration on a nonempty line, with a well-formed
inbound frame at the head of the socket stream: two writes (header and
ciphertext), two reads (header and payload), then the loop continues on
the remaining lines with the generator advanced by both directions. -/
lemma serverLoop_cons_step (l : List Nat) (ls : List (List Nat))
    (f r2 : List Nat) (g : LCG)
    (hne : ¬rustTrim l = []) (hf : f.length < 2 ^ 32) :
    serverLoop (l :: ls) (encodeFrame f ++ r2) g =
      (Ev.send (u32be (xor_crypt (rustTrim l) g).1.length) ::
        Ev.send (xor_crypt (rustTrim l) g).1 ::
        Ev.recv (u32be f.length) :: Ev.recv f ::
        (serverLoop ls r2 (xor_crypt f (xor_crypt (rustTrim l) g).2).2).1,
        (serverLoop ls r2 (xor_crypt f (xor_crypt (rustTrim l) g).2).2).2) := by
  have hassoc : encodeFrame f ++ r2 = u32be f.length ++ (f ++ r2) := by
    simp [encodeFrame]
  simp only [serverLoop, if_neg hne, hassoc, read_exact_u32be,
    beVal_u32be _ hf, read_exact_append]

/-- One full client iteration on a nonempty line, with a well-formed
inbound frame at the head of the socket stream: two reads, then two
writes, then the loop continues. -/
lemma clientLoop_cons_step (l : List Nat) (ls : List (List Nat))
    (f r2 : List Nat) (g : LCG)
    (hne : ¬rustTrim l = []) (hf : f.length < 2 ^ 32) :
    clientLoop (l :: ls) (encodeFrame f ++ r2) g =
      (Ev.recv (u32be f.length) :: Ev.recv f ::
        Ev.send
          (u32be (xor_crypt (rustTrim l) (xor_crypt f g).2).1.length) ::
        Ev.send (xor_crypt (rustTrim l) (xor_crypt f g).2).1 ::
        (clientLoop ls r2
          (xor_crypt (rustTrim l) (xor_crypt f g).2).2).1,
        (clientLoop ls r2
          (xor_crypt (rustTrim l) (xor_crypt f g).2).2).2) := by
  have hassoc : encodeFrame f ++ r2 = u32be f.length ++ (f ++ r2) := by
    simp [encodeFrame]
  simp only [clientLoop, if_neg hne, hassoc, read_exact_u32be,
    beVal_u32be _ hf, read_exact_append]

/-- One client iteration on an empty-trimmed line: two reads, no write,
the keystream advances only by the received frame. -/
lemma clientLoop_cons_skip (l : List Nat) (ls : List (List Nat))
    (f r2 : List Nat) (g : LCG)
    (he : rustTrim l = []) (hf : f.length < 2 ^ 32) :
    clientLoop (l :: ls) (encodeFrame f ++ r2) g =
      (Ev.recv (u32be f.length) :: Ev.recv f ::
        (clientLoop ls r2 (xor_crypt f g).2).1,
        (clientLoop ls r2 (xor_crypt f g).2).2) := by
  have hassoc : encodeFrame f ++ r2 = u32be f.length ++ (f ++ r2) := by
    simp [encodeFrame]
  simp only [clientLoop, if_pos he, hassoc, read_exact_u32be,
    beVal_u32be _ hf, read_exact_append]

/-- Direction trace of the server loop over `k` nonempty lines matched
by `k` well-formed inbound frames: `k` blocks of
send, send, recv, recv. -/
lemma serverLoop_dirs :
    ∀ (lines fs : List (List Nat)) (g : LCG),
      lines.length = fs.length →
      (∀ l ∈ lines, ¬rustTrim l = []) →
      (∀ f ∈ fs, f.length < 2 ^ 32) →
      (serverLoop lines (frameStream fs) g).1.map Ev.dir =
        (List.replicate lines.length
          [Dir.send, Dir.send, Dir.recv, Dir.recv]).flatten := by
  intro lines
  induction lines with
  | nil =>
    intro fs g hlen _ _
    have hfs : fs = [] := List.length_eq_zero.mp hlen.symm
    subst hfs
    rfl
  | cons l ls ih =>
    intro fs g hlen hl hf
    cases fs with
    | nil => simp at hlen
    | cons f fs' =>
      have hne : ¬rustTrim l = [] := hl l (by simp)
      have hflt : f.length < 2 ^ 32 := hf f (by simp)
      rw [frameStream_cons, serverLoop_cons_step l ls f (frameStream fs') g
        hne hflt]
      simp only [List.map, Ev.dir, List.length_cons, List.replicate_succ,
        List.flatten_cons]
      rw [ih fs' _ (by simpa using hlen) (fun x hx => hl x (by simp [hx]))
        (fun x hx => hf x (by simp [hx]))]
      rfl

/-- Direction trace of the client loop over `k` nonempty lines matched
by `k` well-formed inbound frames: `k` blocks of
recv, recv, send, send. -/
lemma clientLoop_dirs :
    ∀ (lines fs : List (List Nat)) (g : LCG),
      lines.length = fs.length →
      (∀ l ∈ lines, ¬rustTrim l = []) →
      (∀ f ∈ fs, f.length < 2 ^ 32) →
      (clientLoop lines (frameStream fs) g).1.map Ev.dir =
        (List.replicate lines.length
          [Dir.recv, Dir.recv, Dir.send, Dir.send]).flatten := by
  intro lines
  induction lines with
  | nil =>
    intro fs g hlen _ _
    have hfs : fs = [] := List.length_eq_zero.mp hlen.symm
    subst hfs
    rfl
  | cons l ls ih =>
    intro fs g hlen hl hf
    cases fs with
    | nil => simp at hlen
    | cons f fs' =>
      have hne : ¬rustTrim l = [] := hl l (by simp)
      have hflt : f.length < 2 ^ 32 := hf f (by simp)
      rw [frameStream_cons, clientLoop_cons_step l ls f (frameStream fs') g
        hne hflt]
      simp only [List.map, Ev.dir, List.length_cons, List.replicate_succ,
        List.flatten_cons]
      rw [ih fs' _ (by simpa using hlen) (fun x hx => hl x (by simp [hx]))
        (fun x hx => hf x (by simp [hx]))]
      rfl

/-- Claim C4: role-asymmetric ordering — with every stdin line nonempty
after trimming and one well-formed inbound frame per line, the server's
I/O trace is send key, recv key, then per iteration send header, send
ciphertext, recv header, recv payload; the client's trace is recv key,
send key, then per iteration recv header, recv payload, send header,
send ciphertext; with equally many iterations the client's direction
trace is the exact mirror (flip) of the server's. -/
theorem c4_role_mirror (privS privC q1 q2 : Nat)
    (linesS linesC fsS fsC : List (List Nat))
    (h1 : linesS.length = fsS.length) (h2 : linesC.length = fsC.length)
    (hl1 : ∀ l ∈ linesS, ¬rustTrim l = [])
    (hl2 : ∀ l ∈ linesC, ¬rustTrim l = [])
    (hf1 : ∀ f ∈ fsS, f.length < 2 ^ 32)
    (hf2 : ∀ f ∈ fsC, f.length < 2 ^ 32)
    (hk : linesS.length = linesC.length) :
    (run_server privS linesS (u64be q1 ++ frameStream fsS)).1.map Ev.dir =
      Dir.send :: Dir.recv ::
        (List.replicate linesS.length
          [Dir.send, Dir.send, Dir.recv, Dir.recv]).flatten ∧
    (run_client privC linesC (u64be q2 ++ frameStream fsC)).1.map Ev.dir =
      Dir.recv :: Dir.send ::
        (List.replicate linesC.length
          [Dir.recv, Dir.recv, Dir.send, Dir.send]).flatten ∧
    (run_client privC linesC (u64be q2 ++ frameStream fsC)).1.map Ev.dir =
      ((run_server privS linesS (u64be q1 ++ frameStream fsS)).1.map
        Ev.dir).map Dir.flip := by
  have hS : (run_server privS linesS
      (u64be q1 ++ frameStream fsS)).1.map Ev.dir =
      Dir.send :: Dir.recv ::
        (List.replicate linesS.length
          [Dir.send, Dir.send, Dir.recv, Dir.recv]).flatten := by
    simp only [run_server, read_exact_u64be, List.map_cons, Ev.dir]
    rw [serverLoop_dirs linesS fsS _ h1 hl1 hf1]
  have hC : (run_client privC linesC
      (u64be q2 ++ frameStream fsC)).1.map Ev.dir =
      Dir.recv :: Dir.send ::
        (List.replicate linesC.length
          [Dir.recv, Dir.recv, Dir.send, Dir.send]).flatten := by
    simp only [run_client, read_exact_u64be, List.map_cons, Ev.dir]
    rw [clientLoop_dirs linesC fsC _ h2 hl2 hf2]
  refine ⟨hS, hC, ?_⟩
  rw [hS, hC, ← hk]
  simp only [List.map_cons, Dir.flip]
  rw [List.map_flatten, List.map_replicate]
  rfl

/-- Concrete instance of `c4_role_mirror`: one line `"h"`, one 1-byte
inbound frame on each side. -/
theorem c4_role_mirror_witness :
    (([[104]] : List (List Nat)).length = ([[9]] : List (List Nat)).length ∧
      (∀ l ∈ ([[104]] : List (List Nat)), ¬rustTrim l = []) ∧
      (∀ f ∈ ([[9]] : List (List Nat)), f.length < 2 ^ 32)) ∧
    ((run_server 2 [[104]] (u64be 4 ++ frameStream [[9]])).1.map Ev.dir =
      Dir.send :: Dir.recv ::
        (List.replicate ([[104]] : List (List Nat)).length
          [Dir.send, Dir.send, Dir.recv, Dir.recv]).flatten ∧
    (run_client 3 [[104]] (u64be 5 ++ frameStream [[9]])).1.map Ev.dir =
      Dir.recv :: Dir.send ::
        (List.replicate ([[104]] : List (List Nat)).length
          [Dir.recv, Dir.recv, Dir.send, Dir.send]).flatten ∧
    (run_client 3 [[104]] (u64be 5 ++ frameStream [[9]])).1.map Ev.dir =
      ((run_server 2 [[104]] (u64be 4 ++ frameStream [[9]])).1.map
        Ev.dir).map Dir.flip) :=
  ⟨⟨rfl, by decide, by decide⟩,
    c4_role_mirror 2 3 4 5 [[104]] [[104]] [[9]] [[9]] rfl rfl
      (by decide) (by decide) (by decide) (by decide) rfl⟩

/-- Claim C8: a stdin line whose trimmed content is empty is never
transmitted: the server loop handles it identically to its absence (no
bytes written, keystream untouched); the client loop emits only the two
reads of the inbound frame and no writes for it, advancing the keystream
only by that frame; and a run fed nothing but empty lines writes
nothing, keeps the generator unchanged, and does not terminate the
session with an error. -/
theorem c8_empty_line_skip (l : List Nat) (ls : List (List Nat))
    (s : List Nat) (g : LCG) (f r2 : List Nat) (n : Nat)
    (he : rustTrim l = []) (hf : f.length < 2 ^ 32) :
    serverLoop (l :: ls) s g = serverLoop ls s g ∧
    clientLoop (l :: ls) (encodeFrame f ++ r2) g =
      (Ev.recv (u32be f.length) :: Ev.recv f ::
        (clientLoop ls r2 (xor_crypt f g).2).1,
        (clientLoop ls r2 (xor_crypt f g).2).2) ∧
    serverLoop (List.replicate n l) s g = ([], .ok g s) := by
  refine ⟨by simp [serverLoop, he], clientLoop_cons_skip l ls f r2 g he hf,
    ?_⟩
  induction n with
  | zero => rfl
  | succ n ih =>
    rw [List.replicate_succ]
    simpa [serverLoop, he] using ih

/-- Concrete instance of `c8_empty_line_skip`: the line is a single
space, the inbound frame is `[9]`. -/
theorem c8_empty_line_skip_witness :
    (rustTrim [32] = [] ∧ ([9] : List Nat).length < 2 ^ 32) ∧
    (serverLoop ([32] :: []) [] (LCG.new 1) = serverLoop [] [] (LCG.new 1) ∧
      clientLoop ([32] :: []) (encodeFrame [9] ++ []) (LCG.new 1) =
        (Ev.recv (u32be ([9] : List Nat).length) :: Ev.recv [9] ::
          (clientLoop [] [] (xor_crypt [9] (LCG.new 1)).2).1,
          (clientLoop [] [] (xor_crypt [9] (LCG.new 1)).2).2) ∧
      serverLoop (List.replicate 2 [32]) [] (LCG.new 1) =
        ([], .ok (LCG.new 1) [])) :=
  ⟨⟨by decide, by decide⟩,
    c8_empty_line_skip [32] [] [] (LCG.new 1) [9] [] 2 (by decide)
      (by decide)⟩

/-- Claim C9: every I/O failure is terminal — a short read of the 8-byte
key during handshake, of the 4-byte length header, or of the frame
payload makes `run_server` / `run_client` (resp. the session loops)
return `ioError` immediately: the trace ends at the failing operation,
and the result does not depend on the remaining stdin lines (no retry,
no reconnection, no further protocol steps). -/
theorem c9_io_error_terminal (priv_ : Nat) (stdin : List (List Nat))
    (sock1 sock2 : List Nat) (l lC : List Nat) (ls lsC : List (List Nat))
    (g : LCG) (n : Nat) (r1 : List Nat)
    (h1 : sock1.length < 8) (h2 : sock2.length < 4)
    (hne : ¬rustTrim l = []) (hn : n < 2 ^ 32) (hr : r1.length < n) :
    run_server priv_ stdin sock1 =
      ([Ev.send (u64be (mod_pow G priv_ P))], .ioError) ∧
    run_client priv_ stdin sock1 = ([], .ioError) ∧
    serverLoop (l :: ls) sock2 g =
      ([Ev.send (u32be (xor_crypt (rustTrim l) g).1.length),
        Ev.send (xor_crypt (rustTrim l) g).1], .ioError) ∧
    clientLoop (lC :: lsC) sock2 g = ([], .ioError) ∧
    serverLoop (l :: ls) (u32be n ++ r1) g =
      ([Ev.send (u32be (xor_crypt (rustTrim l) g).1.length),
        Ev.send (xor_crypt (rustTrim l) g).1, Ev.recv (u32be n)],
        .ioError) ∧
    clientLoop (lC :: lsC) (u32be n ++ r1) g =
      ([Ev.recv (u32be n)], .ioError) := by
  refine ⟨?_, ?_, ?_, ?_, ?_, ?_⟩
  · simp only [run_server, read_exact_short 8 sock1 h1]
  · simp only [run_client, read_exact_short 8 sock1 h1]
  · simp only [serverLoop, if_neg hne, read_exact_short 4 sock2 h2]
  · simp only [clientLoop, read_exact_short 4 sock2 h2]
  · simp only [serverLoop, if_neg hne, read_exact_u32be,
      beVal_u32be _ hn, read_exact_short n r1 hr]
  · simp only [clientLoop, read_exact_u32be, beVal_u32be _ hn,
      read_exact_short n r1 hr]

/-- Concrete instance of `c9_io_error_terminal`: empty socket streams, a
header announcing 3 bytes followed by only 1. -/
theorem c9_io_error_terminal_witness :
    (([] : List Nat).length < 8 ∧ ([] : List Nat).length < 4 ∧
      ¬rustTrim [104] = [] ∧ 3 < 2 ^ 32 ∧ ([7] : List Nat).length < 3) ∧
    (run_server 2 [] [] = ([Ev.send (u64be (mod_pow G 2 P))], .ioError) ∧
      run_client 2 [] [] = ([], .ioError) ∧
      serverLoop ([104] :: []) [] (LCG.new 1) =
        ([Ev.send (u32be (xor_crypt (rustTrim [104]) (LCG.new 1)).1.length),
          Ev.send (xor_crypt (rustTrim [104]) (LCG.new 1)).1], .ioError) ∧
      clientLoop ([104] :: []) [] (LCG.new 1) = ([], .ioError) ∧
      serverLoop ([104] :: []) (u32be 3 ++ [7]) (LCG.new 1) =
        ([Ev.send (u32be (xor_crypt (rustTrim [104]) (LCG.new 1)).1.length),
          Ev.send (xor_crypt (rustTrim [104]) (LCG.new 1)).1,
          Ev.recv (u32be 3)], .ioError) ∧
      clientLoop ([104] :: []) (u32be 3 ++ [7]) (LCG.new 1) =
        ([Ev.recv (u32be 3)], .ioError)) :=
  ⟨⟨by decide, by decide, by decide, by decide, by decide⟩,
    c9_io_error_terminal 2 [] [] [] [104] [104] [] [] (LCG.new 1) 3 [7]
      (by decide) (by decide) (by decide) (by decide) (by decide)⟩
